import Mathlib

/-!
# Verification of the bytecode-compiler / gas-meter / Merkle-tree core

Shallow embedding of the repository's core, translated from the Go source:

* `swarm/storage/binarymerkle.go` — a left-leaning binary Merkle tree with
  build / validate / prove / verify operations;
* `core/vm/program.go` — the JIT program decoder (`CompileProgram`), the
  status state machine (`NewProgram` / `CompileProgram` / `GetProgramStatus`),
  jump-destination registration, and the per-instruction gas and memory
  meter (`calculateGasAndSize`).

Byte strings are modelled as `List Nat` (one `Nat` per byte; byte values are
never constrained, which only widens the domain of the statements).  Machine
integers are modelled as `Nat` with explicit `2 ^ 64` / `2 ^ 256` bounds where
the Go code's fixed width matters.  The hash function is an explicit parameter
`H : Bytes → Bytes` replacing the package-global `hashFunc`; a hash invocation
`h.Reset(); h.Write(a); h.Write(b); h.Sum(nil)` is modelled as `H (a ++ b)`.

Helper functions of the repository that are not part of the provided sources
(`toWordSize`, `calcMemSize`, `calcQuadMemGas`, `callGas`, `baseCalc`,
`getData`/`Bytes2Big`, and the gas constants) are modelled from the
specification; each such definition carries a doc comment saying so.
-/

/-! ## Binary Merkle tree (`swarm/storage/binarymerkle.go`) -/

/-- A byte string: one `Nat` per byte. -/
abbrev Bytes := List Nat

/-- The Go `node` struct: a label and an array `children [2]*node` of child
pointers, each possibly nil (`Option`). -/
inductive MNode : Type where
  | mk (label : Bytes) (child0 child1 : Option MNode) : MNode

/-- `node.label`. -/
def MNode.label : MNode → Bytes
  | .mk l _ _ => l

/-- `node.children[0]`. -/
def MNode.child0 : MNode → Option MNode
  | .mk _ c _ => c

/-- `node.children[1]`. -/
def MNode.child1 : MNode → Option MNode
  | .mk _ _ c => c

/-- The label of a possibly-nil node pointer; Go dereferences only when the
pointer is known non-nil, so the `none` default is never observed there. -/
def labelOf : Option MNode → Bytes
  | none => []
  | some n => n.label

/-- The Go `BTree` struct. -/
structure BTree where
  count : Nat
  root : Option MNode
  rootHash : Bytes

/-- The Go `Root` struct: the root record kept by a client that does not
store the tree. -/
structure MRoot where
  Count : Nat
  Base : Bytes

/-- `binary.Write(h, binary.LittleEndian, count)` for a `uint64`: the eight
little-endian bytes of `count`. -/
def le64 (n : Nat) : Bytes :=
  (List.range 8).map fun i => n / 256 ^ i % 256

/-- `rootHash(count, data)`: hash of `data` followed by the eight
little-endian count bytes. -/
def treeRootHash (H : Bytes → Bytes) (count : Nat) (data : Bytes) : Bytes :=
  H (data ++ le64 count)

/-- `makeHash(left, right)`: hash of the concatenation of the labels of the
non-nil children (writing nothing for a nil child). -/
def makeHash (H : Bytes → Bytes) (left right : Option MNode) : Bytes :=
  match left with
  | none => H []
  | some l =>
    match right with
    | none => H l.label
    | some r => H (l.label ++ r.label)

/-- The loop body of `GetHeight`: the smallest `height ≥` the argument with
`count ≤ 2 ^ height`. -/
def heightLoop (count height : Nat) : Nat :=
  if count ≤ 2 ^ height then height else heightLoop count (height + 1)
termination_by count - 2 ^ height
decreasing_by
  have h1 : 2 ^ height < count := by omega
  have h2 : 2 ^ height < 2 ^ (height + 1) :=
    Nat.pow_lt_pow_right (by norm_num) (Nat.lt_succ_self height)
  exact Nat.sub_lt_sub_left h1 h2

/-- `GetHeight(count)`: the number of nodes from the root to any leaf in a
tree of `count` leaves (`0` for the empty tree). -/
def GetHeight (count : Nat) : Nat :=
  if count = 0 then 0 else heightLoop count 0 + 1

/-- `buildNode(data, height)`: returns a node and the left-over data not used
by it.  Matches the Go recursion: height 0 or empty data yield a nil node;
height 1 yields a leaf taking one block; otherwise two recursive children of
height one less. -/
def buildNode (H : Bytes → Bytes) : List Bytes → Nat → Option MNode × List Bytes
  | data, 0 => (none, data)
  | [], _ + 1 => (none, [])
  | d :: rest, 1 => (some (MNode.mk d none none), rest)
  | data, (h + 2) =>
    let p0 := buildNode H data (h + 1)
    let p1 := buildNode H p0.2 (h + 1)
    (some (MNode.mk (makeHash H p0.1 p1.1) p0.1 p1.1), p1.2)

/-- `Build(data)`: build a tree from an ordered block list.  (The Go code
panics when `buildNode` leaves data unconsumed; `buildNode_snd` below proves
that never happens for `height = GetHeight (len data)`.) -/
def Build (H : Bytes → Bytes) (data : List Bytes) : BTree :=
  let count := data.length
  let height := GetHeight count
  let nd := buildNode H data height
  let rootLabel := if 0 < height then labelOf nd.1 else []
  { count := count, root := nd.1, rootHash := treeRootHash H count rootLabel }

/-- `(*node).validate()`: recomputes counts, heights and labels bottom-up.
`none` models a non-nil error; `some (count, height)` models success.  The
four cases flatten the Go nil checks on the two children; the order of the
error returns (child error, height mismatch, label mismatch) is preserved. -/
def nodeValidate (H : Bytes → Bytes) : Option MNode → Option (Nat × Nat)
  | none => some (0, 0)
  | some (.mk _ none (some _)) => none
  | some (.mk _ none none) => some (1, 1)
  | some (.mk label (some n0) none) =>
    match nodeValidate H (some n0) with
    | none => none
    | some (count, height) =>
      if makeHash H (some n0) none = label then some (count, height + 1) else none
  | some (.mk label (some n0) (some n1)) =>
    match nodeValidate H (some n0) with
    | none => none
    | some (count, height) =>
      match nodeValidate H (some n1) with
      | none => none
      | some (count2, height2) =>
        if height2 = height then
          if makeHash H (some n0) (some n1) = label then
            some (count + count2, height + 1)
          else none
        else none

/-- `(BTree).Validate()`: `true` models a nil error. -/
def BTree.Validate (H : Bytes → Bytes) (t : BTree) : Bool :=
  match nodeValidate H t.root with
  | none => false
  | some (count, height) =>
    if count ≠ t.count then false
    else if height ≠ GetHeight count then false
    else
      let rootLabel := if 0 < height then labelOf t.root else []
      decide (t.rootHash = treeRootHash H count rootLabel)

/-- `n & ^(1 << k)` on a 64-bit word: `n` with bit `k` cleared.  Stated
arithmetically so that the `%`/`/` lemmas of `Nat` apply directly. -/
def clearBit64 (k n : Nat) : Nat :=
  n % 2 ^ k + n / 2 ^ (k + 1) * 2 ^ (k + 1)

/-- `proveNode(height, n, index)`: the sibling chain from the leaf at `index`
up, leaf label first.  `none` models the Go panics (nil dereference, bad
index, out-of-range child index).  `index >> (height-2)` selects the child
and `index & ^(1 << (height-2))` clears that bit for the recursive call. -/
def proveNode : Nat → Option MNode → Nat → Option (List Bytes)
  | 0, _, _ => none
  | 1, none, _ => none
  | 1, some n, index => if index ≠ 0 then none else some [n.label]
  | _ + 2, none, _ => none
  | (h + 2), some (MNode.mk _ c0 c1), index =>
    let childIndex := index >>> h
    let nextIndex := clearBit64 h index
    let child : Option MNode :=
      if childIndex = 0 then c0 else if childIndex = 1 then c1 else none
    match proveNode (h + 1) child nextIndex with
    | none => none
    | some b =>
      let other : Option MNode := if childIndex = 0 then c1 else c0
      match other with
      | none => some b
      | some o => some (b ++ [o.label])

/-- `(*BTree).InclusionProof(index)`: `none` models the panic on an
out-of-range index.  (The debug `fmt.Println` of the height is omitted.) -/
def InclusionProof (t : BTree) (index : Nat) : Option (List Bytes) :=
  if t.count ≤ index then none else proveNode (GetHeight t.count) t.root index

/-- `checkNode(height, proof, index, count)`: recomputes a subtree label from
a proof.  The returned `Bytes` is the recomputed label (`[]` for Go's nil)
and the `Bool` is the ok flag.  The empty-proof and `count <= index` guards
come first as in the source (at height 0 every path returns a failure, so
the guards are folded into that case); `count & mask` is `clearBit64` and
`^mask` is `2 ^ (height - 2)`. -/
def checkNode (H : Bytes → Bytes) : Nat → List Bytes → Nat → Nat → Bytes × Bool
  | 0, _, _, _ => ([], false)
  | 1, proof, index, count =>
    if proof = [] then ([], false)
    else if count ≤ index then ([], false)
    else if index ≠ 0 ∨ proof.length ≠ 1 then ([], false)
    else (proof.headD [], true)
  | (h + 2), proof, index, count =>
    if proof = [] then ([], false)
    else if count ≤ index then ([], false)
    else
      let childIndex := index >>> h
      let nextIndex := clearBit64 h index
      if childIndex = 1 then
        let nextCount := clearBit64 h count
        let r := checkNode H (h + 1) proof.dropLast nextIndex nextCount
        (H (proof.getLastD [] ++ r.1), r.2)
      else
        let nextCount := if 2 ^ h < count then 2 ^ h else count
        if count = nextCount then
          let r := checkNode H (h + 1) proof nextIndex nextCount
          (H r.1, r.2)
        else
          let r := checkNode H (h + 1) proof.dropLast nextIndex nextCount
          (H (r.1 ++ proof.getLastD []), r.2)

/-- `(*Root).CheckProof(h, proof, index)`. -/
def MRoot.CheckProof (H : Bytes → Bytes) (r : MRoot) (proof : List Bytes)
    (index : Nat) : Bool :=
  let res := checkNode H (GetHeight r.Count) proof index r.Count
  res.2 && decide (r.Base = treeRootHash H r.Count res.1)

/-- `splitData(data, size)`: `len(data)/size` full slices, plus the remainder
bytes as one final shorter block when `size` does not divide `len(data)`. -/
def splitData (data : Bytes) (size : Nat) : List Bytes :=
  let count := data.length / size
  let blocks := (List.range count).map fun i => (data.drop (i * size)).take size
  if data.length % size ≠ 0 then blocks ++ [data.drop (count * size)] else blocks

/-- `BuildBMT(h, data, segmentsize)`: `none` models the non-zero error codes
(-1 for a validation failure, -2 for a count mismatch); `some` carries the
tree, the root record and the leaf count. -/
def BuildBMT (H : Bytes → Bytes) (data : Bytes) (segmentsize : Nat) :
    Option (BTree × MRoot × Nat) :=
  let blocks := splitData data segmentsize
  let leafcount := blocks.length
  let tree := Build H blocks
  if ¬ tree.Validate H then none
  else if tree.count ≠ leafcount then none
  else some (tree, ⟨leafcount, tree.rootHash⟩, leafcount)

/-! ## Merkle lemmas -/

/-- `heightLoop` returns an exponent whose power bounds the count. -/
theorem le_pow_heightLoop (c t : Nat) : c ≤ 2 ^ heightLoop c t := by
  unfold heightLoop
  split
  · assumption
  · exact le_pow_heightLoop c (t + 1)
termination_by c - 2 ^ t
decreasing_by
  have h1 : 2 ^ t < c := by omega
  have h2 : 2 ^ t < 2 ^ (t + 1) :=
    Nat.pow_lt_pow_right (by norm_num) (Nat.lt_succ_self t)
  exact Nat.sub_lt_sub_left h1 h2

/-- A non-empty leaf list fits in the capacity of its `GetHeight`. -/
theorem count_le_cap (c : Nat) (hc : c ≠ 0) : c ≤ 2 ^ (GetHeight c - 1) := by
  unfold GetHeight
  rw [if_neg hc]
  simpa using le_pow_heightLoop c 0

/-- `GetHeight` of a non-zero count is at least one. -/
theorem one_le_GetHeight (c : Nat) (hc : c ≠ 0) : 1 ≤ GetHeight c := by
  unfold GetHeight
  rw [if_neg hc]
  omega

/-- Clearing bit `k` of a number below `2 ^ k` is the identity. -/
theorem clearBit64_of_lt {k n : Nat} (h : n < 2 ^ k) : clearBit64 k n = n := by
  unfold clearBit64
  have h2 : n < 2 ^ (k + 1) := lt_of_lt_of_le h (Nat.pow_le_pow_right (by norm_num) (by omega))
  rw [Nat.mod_eq_of_lt h, Nat.div_eq_of_lt h2]
  ring

/-- Clearing bit `k` of a number in `[2^k, 2^(k+1))` subtracts `2 ^ k`. -/
theorem clearBit64_of_mid {k n : Nat} (h1 : 2 ^ k ≤ n) (h2 : n < 2 ^ (k + 1)) :
    clearBit64 k n = n - 2 ^ k := by
  unfold clearBit64
  rw [Nat.div_eq_of_lt h2]
  have hpow : 2 ^ (k + 1) = 2 * 2 ^ k := by rw [pow_succ]; ring
  have : n % 2 ^ k = n - 2 ^ k := by
    have h3 : n - 2 ^ k < 2 ^ k := by omega
    conv_lhs => rw [show n = 2 ^ k + (n - 2 ^ k) by omega]
    rw [Nat.add_mod_left, Nat.mod_eq_of_lt h3]
  omega

/-- Clearing bit `k` of a power `2 ^ j` with `k < j` is the identity. -/
theorem clearBit64_pow {k j : Nat} (h : k + 1 ≤ j) : clearBit64 k (2 ^ j) = 2 ^ j := by
  unfold clearBit64
  have d1 : (2 : Nat) ^ k ∣ 2 ^ j := pow_dvd_pow 2 (by omega)
  have d2 : (2 : Nat) ^ (k + 1) ∣ 2 ^ j := pow_dvd_pow 2 h
  rw [Nat.mod_eq_zero_of_dvd d1, Nat.div_mul_cancel d2]
  ring

theorem buildNode_zero (H : Bytes → Bytes) (data : List Bytes) :
    buildNode H data 0 = (none, data) := by
  cases data <;> simp [buildNode]

theorem buildNode_nil (H : Bytes → Bytes) (h : Nat) :
    buildNode H [] (h + 1) = (none, []) := by
  simp [buildNode]

theorem buildNode_one (H : Bytes → Bytes) (d : Bytes) (rest : List Bytes) :
    buildNode H (d :: rest) 1 = (some (MNode.mk d none none), rest) := rfl

theorem buildNode_succ (H : Bytes → Bytes) (d : Bytes) (rest : List Bytes) (h : Nat) :
    buildNode H (d :: rest) (h + 2) =
      (some (MNode.mk (makeHash H (buildNode H (d :: rest) (h + 1)).1
          (buildNode H (buildNode H (d :: rest) (h + 1)).2 (h + 1)).1)
        (buildNode H (d :: rest) (h + 1)).1
        (buildNode H (buildNode H (d :: rest) (h + 1)).2 (h + 1)).1),
       (buildNode H (buildNode H (d :: rest) (h + 1)).2 (h + 1)).2) := rfl

/-- `buildNode` consumes exactly the capacity `2 ^ h` of a height-`h+1`
subtree (or everything, when the data is shorter). -/
theorem buildNode_snd (H : Bytes → Bytes) (h : Nat) :
    ∀ data : List Bytes, (buildNode H data (h + 1)).2 = data.drop (2 ^ h) := by
  induction h with
  | zero =>
    intro data
    cases data with
    | nil => simp [buildNode_nil]
    | cons d rest => simp [buildNode_one]
  | succ h ih =>
    intro data
    cases data with
    | nil => simp [buildNode_nil]
    | cons d rest =>
      rw [buildNode_succ]
      show (buildNode H (buildNode H (d :: rest) (h + 1)).2 (h + 1)).2 = _
      rw [ih (d :: rest), ih ((d :: rest).drop (2 ^ h)), List.drop_drop]
      congr 1
      rw [pow_succ]
      ring

/-- A height-`h+1` subtree built from non-empty data is non-nil. -/
theorem buildNode_fst (H : Bytes → Bytes) (h : Nat) (d : Bytes) (rest : List Bytes) :
    ∃ n, (buildNode H (d :: rest) (h + 1)).1 = some n := by
  cases h with
  | zero => exact ⟨_, rfl⟩
  | succ h => rw [buildNode_succ]; exact ⟨_, rfl⟩

theorem buildNode_nil_fst (H : Bytes → Bytes) (h : Nat) :
    (buildNode H [] (h + 1)).1 = none := by
  rw [buildNode_nil]

theorem buildNode_succ_fst (H : Bytes → Bytes) (d : Bytes) (rest : List Bytes) (h : Nat) :
    (buildNode H (d :: rest) (h + 2)).1 =
      some (MNode.mk
        (makeHash H (buildNode H (d :: rest) (h + 1)).1
                    (buildNode H ((d :: rest).drop (2 ^ h)) (h + 1)).1)
        (buildNode H (d :: rest) (h + 1)).1
        (buildNode H ((d :: rest).drop (2 ^ h)) (h + 1)).1) := by
  rw [buildNode_succ, buildNode_snd]

/-- `validate` succeeds on every subtree `buildNode` constructs, reporting
the number of leaves consumed and the requested height. -/
theorem nodeValidate_buildNode (H : Bytes → Bytes) :
    ∀ (h : Nat) (data : List Bytes), data ≠ [] →
      nodeValidate H (buildNode H data (h + 1)).1 =
        some (min data.length (2 ^ h), h + 1) := by
  intro h
  induction h with
  | zero =>
    intro data hne
    match data, hne with
    | d :: rest, _ =>
      rw [buildNode_one]
      rw [nodeValidate]
      simp
  | succ h ih =>
    intro data hne
    match data, hne with
    | d :: rest, _ =>
      obtain ⟨node0, hn0⟩ := buildNode_fst H h d rest
      have ihx := ih (d :: rest) (by simp)
      rw [hn0] at ihx
      rw [buildNode_succ_fst]
      by_cases hlen : (d :: rest).length ≤ 2 ^ h
      · -- the whole list fits in the left subtree; the right child is nil
        have hdrop : (d :: rest).drop (2 ^ h) = [] := List.drop_eq_nil_of_le hlen
        rw [hdrop, buildNode_nil_fst, hn0]
        rw [nodeValidate, ihx]
        have hpow : (2 : Nat) ^ h ≤ 2 ^ (h + 1) :=
          Nat.pow_le_pow_right (by norm_num) (by omega)
        simp only [List.length_cons] at hlen
        simp
        omega
      · -- the left subtree is full; the right child holds the remainder
        cases hdd : (d :: rest).drop (2 ^ h) with
        | nil =>
          have hlen2 := congrArg List.length hdd
          rw [List.length_drop] at hlen2
          simp only [List.length_nil] at hlen2
          omega
        | cons d2 rest2 =>
          obtain ⟨node1, hn1⟩ := buildNode_fst H h d2 rest2
          have ih2 := ih (d2 :: rest2) (by simp)
          rw [hn1] at ih2
          rw [hn0, hn1]
          rw [nodeValidate, ihx, ih2]
          have hlen2 := congrArg List.length hdd
          rw [List.length_drop] at hlen2
          have hpow : (2 : Nat) ^ (h + 1) = 2 * 2 ^ h := by rw [pow_succ]; ring
          simp only [List.length_cons] at hlen hlen2
          simp
          omega

/-- `Validate` succeeds (returns a nil error) on every tree `Build` makes:
the first half of the build/validate/prove/check round trip. -/
theorem Build_Validate (H : Bytes → Bytes) (L : List Bytes) :
    (Build H L).Validate H = true := by
  cases L with
  | nil =>
    show BTree.Validate H (Build H []) = true
    rw [Build, BTree.Validate]
    simp [GetHeight, buildNode_zero, nodeValidate, treeRootHash]
  | cons d rest =>
    have hne : d :: rest ≠ [] := by simp
    have hlen0 : (d :: rest).length ≠ 0 := by simp
    have hh := one_le_GetHeight (d :: rest).length hlen0
    obtain ⟨g, hg⟩ : ∃ g, GetHeight (d :: rest).length = g + 1 :=
      ⟨GetHeight (d :: rest).length - 1, by omega⟩
    have hcap := count_le_cap (d :: rest).length hlen0
    rw [hg] at hcap
    simp only [Nat.add_sub_cancel] at hcap
    have hval := nodeValidate_buildNode H g (d :: rest) hne
    have hmin : min (d :: rest).length (2 ^ g) = (d :: rest).length := by omega
    rw [hmin] at hval
    show BTree.Validate H (Build H (d :: rest)) = true
    rw [Build, BTree.Validate]
    simp only [hg, hval]
    simp [← hg]

theorem checkNode_nil (H : Bytes → Bytes) (ht i c : Nat) :
    checkNode H ht [] i c = ([], false) := by
  match ht with
  | 0 => rfl
  | 1 => rfl
  | _ + 2 => rw [checkNode]; simp

theorem checkNode_one (H : Bytes → Bytes) (p : Bytes) (c : Nat) (hc : 0 < c) :
    checkNode H 1 [p] 0 c = (p, true) := by
  rw [checkNode]
  simp [Nat.not_le.mpr hc]

theorem checkNode_succ (H : Bytes → Bytes) (p : Bytes) (ps : List Bytes)
    (h i c : Nat) (hc : ¬ c ≤ i) :
    checkNode H (h + 2) (p :: ps) i c =
      (let childIndex := i >>> h
       let nextIndex := clearBit64 h i
       if childIndex = 1 then
         let nextCount := clearBit64 h c
         let r := checkNode H (h + 1) (p :: ps).dropLast nextIndex nextCount
         (H ((p :: ps).getLastD [] ++ r.1), r.2)
       else
         let nextCount := if 2 ^ h < c then 2 ^ h else c
         if c = nextCount then
           let r := checkNode H (h + 1) (p :: ps) nextIndex nextCount
           (H r.1, r.2)
         else
           let r := checkNode H (h + 1) (p :: ps).dropLast nextIndex nextCount
           (H (r.1 ++ (p :: ps).getLastD []), r.2)) := by
  rw [checkNode]
  simp [hc]

theorem proveNode_one (n : MNode) (index : Nat) :
    proveNode 1 (some n) index = if index ≠ 0 then none else some [n.label] := rfl

theorem proveNode_succ (l : Bytes) (c0 c1 : Option MNode) (index h : Nat) :
    proveNode (h + 2) (some (MNode.mk l c0 c1)) index =
      (let childIndex := index >>> h
       let nextIndex := clearBit64 h index
       let child : Option MNode :=
         if childIndex = 0 then c0 else if childIndex = 1 then c1 else none
       match proveNode (h + 1) child nextIndex with
       | none => none
       | some b =>
         let other : Option MNode := if childIndex = 0 then c1 else c0
         match other with
         | none => some b
         | some o => some (b ++ [o.label])) := rfl

/-- Round-trip core: the honest proof for leaf `i` of a subtree built from
`data` recomputes exactly the subtree's label.  The verifier may be handed
the exact leaf count or — down the right spine of a full subtree — an
inflated count `2 ^ j` (the source's `count & mask` does not clear the bit
of a full subtree's count); the disjunctive count hypothesis covers both. -/
theorem proveNode_checkNode (H : Bytes → Bytes) :
    ∀ (h : Nat) (data : List Bytes) (i cnt : Nat), data ≠ [] →
      i < min data.length (2 ^ h) →
      (cnt = min data.length (2 ^ h) ∨
        (min data.length (2 ^ h) = 2 ^ h ∧ ∃ j, h ≤ j ∧ cnt = 2 ^ j)) →
      ∃ pf, proveNode (h + 1) (buildNode H data (h + 1)).1 i = some pf ∧
        pf ≠ [] ∧
        checkNode H (h + 1) pf i cnt =
          (labelOf (buildNode H data (h + 1)).1, true) := by
  intro h
  induction h with
  | zero =>
    intro data i cnt hne hi hcnt
    match data, hne with
    | d :: rest, _ =>
      have hi0 : i = 0 := by
        simp at hi
        omega
      have hcpos : 0 < cnt := by
        rcases hcnt with hc | ⟨_, j, _, hj⟩
        · have : 0 < min (d :: rest).length (2 ^ 0) := by simp
          omega
        · rw [hj]; positivity
      subst hi0
      refine ⟨[d], ?_, by simp, ?_⟩
      · rw [buildNode_one, proveNode_one]
        simp [MNode.label]
      · rw [buildNode_one, checkNode_one H d cnt hcpos]
        simp [labelOf, MNode.label]
  | succ h ih =>
    intro data i cnt hne hi hcnt
    match data, hne with
    | d :: rest, _ =>
      have hpow : (2 : Nat) ^ (h + 1) = 2 * 2 ^ h := by rw [pow_succ]; ring
      have hpowpos : (0 : Nat) < 2 ^ h := by positivity
      -- the count handed to the verifier always exceeds the leaf index
      have hicnt : i < cnt := by
        rcases hcnt with hc | ⟨hm, j, hjj, hj⟩
        · omega
        · have : (2 : Nat) ^ (h + 1) ≤ 2 ^ j :=
            Nat.pow_le_pow_right (by norm_num) (by omega)
          omega
      obtain ⟨node0, hn0⟩ := buildNode_fst H h d rest
      have hfst := buildNode_succ_fst H d rest h
      by_cases hci : i < 2 ^ h
      · -- left child: `childIndex = 0`
        have hshift : i >>> h = 0 := by
          rw [Nat.shiftRight_eq_div_pow]
          exact Nat.div_eq_of_lt hci
        have hclear : clearBit64 h i = i := clearBit64_of_lt hci
        by_cases hlen : (d :: rest).length ≤ 2 ^ h
        · -- the right child is nil: no sibling label is consumed
          have hm0 : min (d :: rest).length (2 ^ h) = (d :: rest).length := by omega
          have hcnt0 : cnt = (d :: rest).length := by
            rcases hcnt with hc | ⟨hmm, _⟩ <;> omega
          have hdrop : (d :: rest).drop (2 ^ h) = [] := List.drop_eq_nil_of_le hlen
          rw [hdrop, buildNode_nil_fst] at hfst
          obtain ⟨pf0, hp0, hp0ne, hchk0⟩ :=
            ih (d :: rest) i cnt (by simp) (by omega) (by left; omega)
          refine ⟨pf0, ?_, hp0ne, ?_⟩
          · rw [hfst, proveNode_succ]
            simp only [hshift, hclear]
            simp [hp0]
          · rcases pf0 with _ | ⟨p, ps⟩
            · exact absurd rfl hp0ne
            · rw [checkNode_succ H p ps h i cnt (by omega)]
              simp only [hshift, hclear]
              have hnc : ¬ 2 ^ h < cnt := by omega
              rw [if_neg (by omega : ¬ (0 : Nat) = 1), if_neg hnc, if_pos rfl]
              rw [hchk0, hfst, hn0]
              simp [labelOf, makeHash, MNode.label]
        · -- the right child exists: consume its label as the sibling
          push_neg at hlen
          have hcntgt : 2 ^ h < cnt := by
            rcases hcnt with hc | ⟨hmm, j, hjj, hj⟩
            · omega
            · have : (2 : Nat) ^ (h + 1) ≤ 2 ^ j :=
                Nat.pow_le_pow_right (by norm_num) (by omega)
              omega
          cases hdd : (d :: rest).drop (2 ^ h) with
          | nil =>
            have hlen2 := congrArg List.length hdd
            rw [List.length_drop] at hlen2
            simp only [List.length_nil, List.length_cons] at hlen2
            simp only [List.length_cons] at hlen
            omega
          | cons d2 rest2 =>
            obtain ⟨node1, hn1⟩ := buildNode_fst H h d2 rest2
            rw [hdd, hn1] at hfst
            obtain ⟨pf0, hp0, hp0ne, hchk0⟩ :=
              ih (d :: rest) i (2 ^ h) (by simp) (by omega) (by left; omega)
            refine ⟨pf0 ++ [node1.label], ?_, by simp, ?_⟩
            · rw [hfst, proveNode_succ]
              simp only [hshift, hclear]
              simp [hp0]
            · rcases pf0 with _ | ⟨p, ps⟩
              · exact absurd rfl hp0ne
              · rw [show (p :: ps) ++ [node1.label] = p :: (ps ++ [node1.label]) by simp]
                rw [checkNode_succ H p (ps ++ [node1.label]) h i cnt (by omega)]
                simp only [hshift, hclear]
                rw [if_neg (by omega : ¬ (0 : Nat) = 1), if_pos hcntgt,
                  if_neg (by omega : ¬ cnt = 2 ^ h)]
                rw [show p :: (ps ++ [node1.label]) = (p :: ps) ++ [node1.label] by simp]
                rw [List.dropLast_concat]
                rw [show ((p :: ps) ++ [node1.label]).getLastD [] = node1.label from
                  List.getLastD_concat ..]
                rw [hchk0, hfst, hn0]
                simp [labelOf, makeHash, MNode.label]
      · -- right child: `childIndex = 1`
        push_neg at hci
        have hi2 : i < 2 ^ (h + 1) := by omega
        have hshift : i >>> h = 1 := by
          rw [Nat.shiftRight_eq_div_pow]
          exact Nat.div_eq_of_lt_le (by omega) (by omega)
        have hclear : clearBit64 h i = i - 2 ^ h := clearBit64_of_mid hci hi2
        have hlen : 2 ^ h < (d :: rest).length := by omega
        cases hdd : (d :: rest).drop (2 ^ h) with
        | nil =>
          have hlen2 := congrArg List.length hdd
          rw [List.length_drop] at hlen2
          simp only [List.length_nil, List.length_cons] at hlen2
          simp only [List.length_cons] at hlen
          omega
        | cons d2 rest2 =>
          obtain ⟨node1, hn1⟩ := buildNode_fst H h d2 rest2
          rw [hdd, hn1] at hfst
          have hd2len : (d2 :: rest2).length = (d :: rest).length - 2 ^ h := by
            have hlen3 := congrArg List.length hdd
            rw [List.length_drop] at hlen3
            omega
          -- the count passed to the right subtree: exact, or an inflated power
          have hcnt2 : clearBit64 h cnt = min (d2 :: rest2).length (2 ^ h) ∨
              (min (d2 :: rest2).length (2 ^ h) = 2 ^ h ∧
                ∃ j, h ≤ j ∧ clearBit64 h cnt = 2 ^ j) := by
            rcases hcnt with hc | ⟨hmm, j, hjj, hj⟩
            · by_cases hfull : cnt = 2 ^ (h + 1)
              · right
                refine ⟨by omega, h + 1, by omega, ?_⟩
                rw [hfull]
                exact clearBit64_pow (by omega)
              · left
                have hcu : cnt < 2 ^ (h + 1) := by omega
                rw [clearBit64_of_mid (by omega) hcu]
                omega
            · right
              refine ⟨by omega, j, by omega, ?_⟩
              rw [hj]
              exact clearBit64_pow (by omega)
          have him : i - 2 ^ h < min (d2 :: rest2).length (2 ^ h) := by
            clear hcnt2 hcnt
            omega
          obtain ⟨pf1, hp1, hp1ne, hchk1⟩ :=
            ih (d2 :: rest2) (i - 2 ^ h) (clearBit64 h cnt) (by simp) him hcnt2
          refine ⟨pf1 ++ [node0.label], ?_, by simp, ?_⟩
          · rw [hfst, proveNode_succ]
            simp only [hshift, hclear]
            rw [hn1] at hp1
            rw [hn0]
            simp [hp1]
          · rcases pf1 with _ | ⟨p, ps⟩
            · exact absurd rfl hp1ne
            · rw [show (p :: ps) ++ [node0.label] = p :: (ps ++ [node0.label]) by simp]
              rw [checkNode_succ H p (ps ++ [node0.label]) h i cnt (by omega)]
              simp only [hshift, hclear, if_true]
              rw [show p :: (ps ++ [node0.label]) = (p :: ps) ++ [node0.label] by simp]
              rw [List.dropLast_concat]
              rw [show ((p :: ps) ++ [node0.label]).getLastD [] = node0.label from
                List.getLastD_concat ..]
              rw [hchk1, hfst, hn1, hn0]
              simp [labelOf, makeHash, MNode.label]

/-- `checkNode` fails whenever the index is not strictly below the count. -/
theorem checkNode_le_index (H : Bytes → Bytes) (ht : Nat) (proof : List Bytes)
    (i c : Nat) (hc : c ≤ i) : checkNode H ht proof i c = ([], false) := by
  match ht, proof with
  | 0, _ => rfl
  | 1, [] => rfl
  | 1, p :: ps =>
    rw [checkNode]
    simp [hc]
  | h + 2, [] =>
    rw [checkNode]
    simp
  | h + 2, p :: ps =>
    rw [checkNode]
    simp [hc]

/-- A fixed example hash function used by the concrete witnesses below:
prepending a marker byte keeps it injective on the inputs exercised. -/
def HW : Bytes → Bytes := fun bs => 7 :: bs

/-- C2: for every leaf list `L` and every `i < len L`, the tree built from
`L` validates, and the inclusion proof for `i` checks against the root
record `{Count := len L, Base := root hash}`. -/
theorem c2_build_validate_checkproof (H : Bytes → Bytes) (L : List Bytes)
    (i : Nat) (hi : i < L.length) :
    (Build H L).Validate H = true ∧
      ∃ pf, InclusionProof (Build H L) i = some pf ∧
        MRoot.CheckProof H ⟨L.length, (Build H L).rootHash⟩ pf i = true := by
  refine ⟨Build_Validate H L, ?_⟩
  have hne : L ≠ [] := by
    intro h0
    rw [h0] at hi
    simp at hi
  have hlen0 : L.length ≠ 0 := by
    intro h0
    omega
  obtain ⟨g, hg⟩ : ∃ g, GetHeight L.length = g + 1 :=
    ⟨GetHeight L.length - 1, by have := one_le_GetHeight L.length hlen0; omega⟩
  have hcap := count_le_cap L.length hlen0
  rw [hg] at hcap
  simp only [Nat.add_sub_cancel] at hcap
  have hmin : min L.length (2 ^ g) = L.length := by omega
  obtain ⟨pf, hp, hpne, hchk⟩ :=
    proveNode_checkNode H g L i L.length hne (by omega) (by left; omega)
  refine ⟨pf, ?_, ?_⟩
  · rw [InclusionProof]
    rw [if_neg (by simp [Build]; omega)]
    show proveNode (GetHeight (Build H L).count) (Build H L).root i = some pf
    simp only [Build]
    rw [hg]
    exact hp
  · simp only [MRoot.CheckProof, Build, hg]
    rw [hchk]
    simp

/-- Witness for C2 at a concrete three-leaf tree and index 1. -/
theorem c2_build_validate_checkproof_witness :
    1 < ([[1], [2], [3]] : List Bytes).length ∧
      ((Build HW [[1], [2], [3]]).Validate HW = true ∧
        ∃ pf, InclusionProof (Build HW [[1], [2], [3]]) 1 = some pf ∧
          MRoot.CheckProof HW ⟨3, (Build HW [[1], [2], [3]]).rootHash⟩ pf 1 = true) :=
  ⟨by norm_num, c2_build_validate_checkproof HW [[1], [2], [3]] 1 (by norm_num)⟩

/-- C9: `CheckProof` rejects an empty proof list and any index that is not
strictly below the root's `Count`; in particular a `Count = 0` root rejects
everything. -/
theorem c9_checkproof_rejects (H : Bytes → Bytes) (r : MRoot)
    (proof : List Bytes) (i : Nat) (h : proof = [] ∨ r.Count ≤ i) :
    MRoot.CheckProof H r proof i = false := by
  rcases h with h | h
  · subst h
    simp [MRoot.CheckProof, checkNode_nil]
  · simp [MRoot.CheckProof, checkNode_le_index H _ _ _ _ h]

/-- Witness for C9: a `Count = 0` root rejects a non-empty proof at index 0. -/
theorem c9_checkproof_rejects_witness :
    (([[5]] : List Bytes) = [] ∨ (MRoot.mk 0 []).Count ≤ 0) ∧
      MRoot.CheckProof HW ⟨0, []⟩ [[5]] 0 = false :=
  ⟨Or.inr (by norm_num), c9_checkproof_rejects HW ⟨0, []⟩ [[5]] 0 (Or.inr (by norm_num))⟩

/-- C10: `BuildBMT` succeeds for every data string and positive segment
size; it splits the data into `len/size` full segments plus one shorter
remainder segment exactly when `size` does not divide `len` (kept as-is,
no padding), and the returned count is the number of leaves and the tree's
count. -/
theorem c10_buildbmt_split (H : Bytes → Bytes) (data : Bytes) (size : Nat)
    (hs : 0 < size) :
    BuildBMT H data size = some (Build H (splitData data size),
        ⟨(splitData data size).length, (Build H (splitData data size)).rootHash⟩,
        (splitData data size).length) ∧
      (Build H (splitData data size)).count = (splitData data size).length ∧
      (splitData data size).length
        = data.length / size + (if data.length % size = 0 then 0 else 1) ∧
      splitData data size
        = (List.range (data.length / size)).map
            (fun k => (data.drop (k * size)).take size)
          ++ (if data.length % size = 0 then []
              else [data.drop (data.length / size * size)]) ∧
      (splitData data size).map List.length
        = List.replicate (data.length / size) size
          ++ (if data.length % size = 0 then [] else [data.length % size]) := by
  have hshape : splitData data size
      = (List.range (data.length / size)).map
          (fun k => (data.drop (k * size)).take size)
        ++ (if data.length % size = 0 then []
            else [data.drop (data.length / size * size)]) := by
    by_cases hr : data.length % size = 0 <;> simp [splitData, hr]
  have hcnt : (Build H (splitData data size)).count = (splitData data size).length := rfl
  refine ⟨?_, hcnt, ?_, hshape, ?_⟩
  · simp [BuildBMT, Build_Validate H (splitData data size), hcnt]
  · by_cases hr : data.length % size = 0 <;> simp [splitData, hr]
  · rw [hshape, List.map_append, List.map_map]
    congr 1
    · rw [List.eq_replicate_iff]
      constructor
      · simp
      · intro b hb
        simp only [List.mem_map, List.mem_range, Function.comp] at hb
        obtain ⟨k, hk, hb⟩ := hb
        subst hb
        simp only [List.length_take, List.length_drop]
        have : (k + 1) * size ≤ data.length := by
          have h1 : k + 1 ≤ data.length / size := hk
          calc (k + 1) * size ≤ data.length / size * size :=
                Nat.mul_le_mul_right size h1
            _ ≤ data.length := Nat.div_mul_le_self data.length size
        have hmul : (k + 1) * size = k * size + size := by ring
        omega
    · by_cases hr : data.length % size = 0
      · simp [hr]
      · rw [if_neg hr, if_neg hr]
        simp only [List.map_cons, List.map_nil, List.length_drop]
        have hmod := Nat.mod_def data.length size
        rw [Nat.mul_comm] at hmod
        congr 1
        omega

/-- Witness for C10: seven bytes split at segment size three give two full
segments and a one-byte remainder. -/
theorem c10_buildbmt_split_witness :
    0 < 3 ∧
      (BuildBMT HW [1, 2, 3, 4, 5, 6, 7] 3 = some (Build HW (splitData [1, 2, 3, 4, 5, 6, 7] 3),
          ⟨(splitData [1, 2, 3, 4, 5, 6, 7] 3).length,
            (Build HW (splitData [1, 2, 3, 4, 5, 6, 7] 3)).rootHash⟩,
          (splitData [1, 2, 3, 4, 5, 6, 7] 3).length) ∧
        (Build HW (splitData [1, 2, 3, 4, 5, 6, 7] 3)).count
          = (splitData [1, 2, 3, 4, 5, 6, 7] 3).length ∧
        (splitData [1, 2, 3, 4, 5, 6, 7] 3).length
          = ([1, 2, 3, 4, 5, 6, 7] : Bytes).length / 3
            + (if ([1, 2, 3, 4, 5, 6, 7] : Bytes).length % 3 = 0 then 0 else 1) ∧
        splitData [1, 2, 3, 4, 5, 6, 7] 3
          = (List.range (([1, 2, 3, 4, 5, 6, 7] : Bytes).length / 3)).map
              (fun k => (([1, 2, 3, 4, 5, 6, 7] : Bytes).drop (k * 3)).take 3)
            ++ (if ([1, 2, 3, 4, 5, 6, 7] : Bytes).length % 3 = 0 then []
                else [([1, 2, 3, 4, 5, 6, 7] : Bytes).drop
                  (([1, 2, 3, 4, 5, 6, 7] : Bytes).length / 3 * 3)]) ∧
        (splitData [1, 2, 3, 4, 5, 6, 7] 3).map List.length
          = List.replicate (([1, 2, 3, 4, 5, 6, 7] : Bytes).length / 3) 3
            ++ (if ([1, 2, 3, 4, 5, 6, 7] : Bytes).length % 3 = 0 then []
                else [([1, 2, 3, 4, 5, 6, 7] : Bytes).length % 3])) :=
  ⟨by norm_num, c10_buildbmt_split HW [1, 2, 3, 4, 5, 6, 7] 3 (by norm_num)⟩

/-! ## VM gas and memory meter (`core/vm/program.go`, `calculateGasAndSize`) -/

/-- `math.IsAddSafe(a, b)`.  Modelled from the spec: checked addition over
unsigned 64-bit integers, reporting overflow. -/
def IsAddSafe (a b : Nat) : Bool := decide (a + b < 2 ^ 64)

/-- `math.IsMulSafe(a, b)`.  Modelled from the spec: checked multiplication
over unsigned 64-bit integers, reporting overflow. -/
def IsMulSafe (a b : Nat) : Bool := decide (a * b < 2 ^ 64)

/-- `toWordSize(n)`.  Modelled from the spec: `word_ceil(n) = ⌈n / 32⌉`. -/
def toWordSize (n : Nat) : Nat := (n + 31) / 32

/-- Gas constants.  Modelled from the spec (named there `MemoryGas`,
`QuadCoeff`, `CopyGas`, the `Sstore*` prices and refund, and the `CALL`
surcharges); the numeric values are the protocol's and never matter to the
theorems below, which treat them symbolically. -/
def MemoryGas64 : Nat := 3

/-- Modelled from the spec: the quadratic memory cost divisor. -/
def QuadCoeffDiv64 : Nat := 512

/-- Modelled from the spec: per-word copy charge. -/
def CopyGas64 : Nat := 3

/-- Modelled from the spec: `SSTORE` zero-to-non-zero price. -/
def SstoreSetGas64 : Nat := 20000

/-- Modelled from the spec: `SSTORE` non-zero-to-zero price. -/
def SstoreClearGas64 : Nat := 5000

/-- Modelled from the spec: `SSTORE` non-zero-to-non-zero price. -/
def SstoreResetGas64 : Nat := 5000

/-- Modelled from the spec: refund granted when an `SSTORE` clears a slot. -/
def SstoreRefundGas : Nat := 15000

/-- Modelled from the spec: surcharge for transferring value in a call. -/
def CallValueTransferGas64 : Nat := 9000

/-- Modelled from the spec: surcharge for calling into a fresh account. -/
def CallNewAccountGas64 : Nat := 25000

/-- Modelled from the spec: `mem_size(offset, length)` computes
`offset + length` rounded up to a 32-byte word, reporting overflow when
either operand or their sum leaves the 64-bit range. -/
def calcMemSize (off l : Nat) : Nat × Bool :=
  if 2 ^ 64 ≤ off ∨ 2 ^ 64 ≤ l ∨ 2 ^ 64 ≤ off + l then (0, true)
  else (toWordSize (off + l) * 32, false)

/-- Modelled from the spec: the memory-growth charge
`MemoryGas * (w_new - w_cur) + (w_new² - w_cur²) / QuadCoeff` with
`new_hw = max(current_hw, newMemSize)`, `w_new = new_hw / 32` and
`w_cur = current_hw / 32`.  The second return value of the source is
discarded (`memGas, _ :=`) at every call site in `calculateGasAndSize`
and is omitted here. -/
def calcQuadMemGas (memLen newMemSize : Nat) : Nat :=
  let newHw := max memLen newMemSize
  let wNew := newHw / 32
  let wCur := memLen / 32
  MemoryGas64 * (wNew - wCur) + (wNew ^ 2 - wCur ^ 2) / QuadCoeffDiv64

/-- The subset of `params.GasTable` the modelled opcodes read. -/
structure GasTable where
  Calls : Nat

/-- The environment facts `calculateGasAndSize` consults: the EIP-158 rule
selector and the world-state account predicates (addresses as `Nat`). -/
structure EnvModel where
  eip158 : Bool
  dbEmpty : Nat → Bool
  dbExist : Nat → Bool

/-- The contract fields read by the meter. -/
structure ContractM where
  addr : Nat
  gas64 : Nat

/-- The world-state reader: `GetState(address, key)` as a function; the
refund accumulator is reported as a delta in the meter's result instead of
being mutated in place. -/
structure StateDBM where
  getState : Nat → Nat → Nat

/-- Modelled from the spec: `callGas` implements the 63/64 rule
`forwarded = min(requested, available − gas − ⌊(available − gas) / 64⌋)`.
The gas-table argument of the source signature is not consulted by the
spec's formula. -/
def callGas (gasTable : GasTable) (availableGas base callCost : Nat) : Nat :=
  let _ := gasTable
  let g := availableGas - base
  min callCost (g - g / 64)

/-- Modelled from the spec: `baseCalc` starts with the instruction's base
gas after verifying the stack holds at least `instr.pop` items
(`none` models the StackUnderflow error). -/
def baseCalc (instrGas instrPop : Nat) (stack : List Nat) : Option Nat :=
  if stack.length < instrPop then none else some instrGas

/-- The `k`-th stack item counting from the top (the stack is a list with
its top at the head): Go's `stack.data[stack.len()-1-k]`. -/
def stackAt (stack : List Nat) (k : Nat) : Nat := stack.getD k 0

/-- The opcodes whose metering the claims concern. -/
inductive Op where
  | SSTORE | MLOAD | EXTCODECOPY | CALL | CALLCODE
deriving DecidableEq

/-- `calculateGasAndSize` restricted to the modelled opcodes.  The stack is
a list with its top at the head, so Go's `stack.data[stack.len()-k]` is
`stackAt stack (k-1)` here (an out-of-range read is a Go panic; the theorems below
carry explicit stack-length hypotheses).  `none` models a returned error
(stack underflow or OutOfGas); `some` carries
`(toWordSize(newMemSize) * 32, gas, stack', refundDelta)`: the source's
two return values, the stack after the CALL requested-gas replacement, and
the amount the branch added to the state refund accumulator.  Each branch
ends with the source's common `return toWordSize(newMemSize)*32, gas, nil`
(the trailing `sizeFault` check is kept in the source's order relative to
each branch's own checks). -/
def calculateGasAndSize (gasTable : GasTable) (env : EnvModel)
    (contract : ContractM) (op : Op) (instrGas instrPop : Nat)
    (statedb : StateDBM) (memLen : Nat) (stack : List Nat) :
    Option (Nat × Nat × List Nat × Nat) :=
  match baseCalc instrGas instrPop stack with
  | none => none
  | some gas0 =>
    match op with
    | .SSTORE =>
      if stack.length < 2 then none
      else
        let x := stackAt stack 0
        let y := stackAt stack 1
        let val := statedb.getState contract.addr (x % 2 ^ 256)
        if val = 0 ∧ ¬ y % 2 ^ 256 = 0 then
          some (toWordSize 0 * 32, SstoreSetGas64, stack, 0)
        else if ¬ val = 0 ∧ y % 2 ^ 256 = 0 then
          some (toWordSize 0 * 32, SstoreClearGas64, stack, SstoreRefundGas)
        else
          some (toWordSize 0 * 32, SstoreResetGas64, stack, 0)
    | .MLOAD =>
      let ms := calcMemSize (stackAt stack 0) 32
      let memGas := calcQuadMemGas memLen ms.1
      if ¬ IsAddSafe gas0 memGas then none
      else if ms.2 then none
      else some (toWordSize ms.1 * 32, gas0 + memGas, stack, 0)
    | .EXTCODECOPY =>
      let ms := calcMemSize (stackAt stack 1) (stackAt stack 3)
      if ms.2 then none
      else
        let words := toWordSize (stackAt stack 3)
        if ¬ IsMulSafe words CopyGas64 then none
        else
          let wordsGas := words * CopyGas64
          if ¬ IsAddSafe gas0 wordsGas then none
          else
            let gas1 := gas0 + wordsGas
            let memGas := calcQuadMemGas memLen ms.1
            if ¬ IsAddSafe gas1 memGas then none
            else
              -- the source checks this addition but never performs
              -- `gas += memGas` in the EXTCODECOPY branch
              some (toWordSize ms.1 * 32, gas1, stack, 0)
    | .CALL | .CALLCODE =>
      let gas1 := gasTable.Calls
      let transfersValue := ¬ stackAt stack 2 = 0
      let afterAcct : Option Nat :=
        if op = .CALL then
          let address := stackAt stack 1 % 2 ^ 160
          if env.eip158 then
            if env.dbEmpty address ∧ transfersValue then
              if ¬ IsAddSafe gas1 CallNewAccountGas64 then none
              else some (gas1 + CallNewAccountGas64)
            else some gas1
          else
            if ¬ env.dbExist address then
              if ¬ IsAddSafe gas1 CallNewAccountGas64 then none
              else some (gas1 + CallNewAccountGas64)
            else some gas1
        else some gas1
      match afterAcct with
      | none => none
      | some gas2 =>
        let afterValue : Option Nat :=
          if transfersValue then
            if ¬ IsAddSafe gas2 CallValueTransferGas64 then none
            else some (gas2 + CallValueTransferGas64)
          else some gas2
        match afterValue with
        | none => none
        | some gas3 =>
          let msx := calcMemSize (stackAt stack 5) (stackAt stack 6)
          if msx.2 then none
          else
            let msy := calcMemSize (stackAt stack 3) (stackAt stack 4)
            if msy.2 then none
            else
              let nms := max msx.1 msy.1
              let memGas := calcQuadMemGas memLen nms
              if ¬ IsAddSafe gas3 memGas then none
              else
                let gas4 := gas3 + memGas
                -- stack.data[stack.len()-1].Uint64(): the requested gas is a
                -- 256-bit stack item truncated to its low 64 bits here
                let cg := callGas gasTable contract.gas64 gas4 (stackAt stack 0 % 2 ^ 64)
                let stack2 := cg :: stack.tail
                if ¬ IsAddSafe gas4 cg then none
                else some (toWordSize nms * 32, gas4 + cg, stack2, 0)

/-- The memory region each modelled opcode touches, per the spec's region
map (the first component of the corresponding `calcMemSize` result; the
maximum of the input and output regions for calls; none for `SSTORE`). -/
def regionSize (op : Op) (stack : List Nat) : Nat :=
  match op with
  | .SSTORE => 0
  | .MLOAD => (calcMemSize (stackAt stack 0) 32).1
  | .EXTCODECOPY => (calcMemSize (stackAt stack 1) (stackAt stack 3)).1
  | .CALL | .CALLCODE =>
      max (calcMemSize (stackAt stack 5) (stackAt stack 6)).1
          (calcMemSize (stackAt stack 3) (stackAt stack 4)).1

/-- C5: `SSTORE` pricing: with prior value `v` for the key on top of the
stack and new value `w` second from top, gas is `SstoreSet` when
`v = 0 ∧ w ≠ 0` (no refund), `SstoreClear` with exactly `SstoreRefund`
added to the refund accumulator when `v ≠ 0 ∧ w = 0`, and `SstoreReset`
otherwise (no refund). -/
theorem c5_sstore_gas (gt : GasTable) (env : EnvModel) (c : ContractM)
    (sdb : StateDBM) (memLen instrGas instrPop : Nat) (stack : List Nat)
    (hpop : instrPop ≤ stack.length) (h2 : 2 ≤ stack.length)
    (hw : stackAt stack 1 < 2 ^ 256) :
    calculateGasAndSize gt env c .SSTORE instrGas instrPop sdb memLen stack =
      some (0,
        (if sdb.getState c.addr (stackAt stack 0 % 2 ^ 256) = 0 ∧ stackAt stack 1 ≠ 0
         then SstoreSetGas64
         else if sdb.getState c.addr (stackAt stack 0 % 2 ^ 256) ≠ 0 ∧ stackAt stack 1 = 0
         then SstoreClearGas64 else SstoreResetGas64),
        stack,
        (if sdb.getState c.addr (stackAt stack 0 % 2 ^ 256) ≠ 0 ∧ stackAt stack 1 = 0
         then SstoreRefundGas else 0)) := by
  have hmod : stackAt stack 1 % 2 ^ 256 = stackAt stack 1 := Nat.mod_eq_of_lt hw
  simp only [calculateGasAndSize, baseCalc, if_neg (by omega : ¬ stack.length < instrPop),
    if_neg (by omega : ¬ stack.length < 2), hmod]
  by_cases hv : sdb.getState c.addr (stackAt stack 0 % 2 ^ 256) = 0 <;>
    by_cases hy : stackAt stack 1 = 0 <;>
      simp [hv, hy, toWordSize] <;>
      simp_all

/-- Witness for C5: a zero-valued slot written with 7 prices at
`SstoreSet` with no refund (the spec's scenario 3, first half). -/
theorem c5_sstore_gas_witness :
    2 ≤ ([5, 7] : List Nat).length ∧ (stackAt [5, 7] 1 : Nat) < 2 ^ 256 ∧
      calculateGasAndSize ⟨700⟩ ⟨false, fun _ => false, fun _ => false⟩ ⟨9, 0⟩
        .SSTORE 0 2 ⟨fun _ _ => 0⟩ 0 [5, 7] = some (0, SstoreSetGas64, [5, 7], 0) := by
  refine ⟨by norm_num, by norm_num [stackAt], ?_⟩
  have h := c5_sstore_gas ⟨700⟩ ⟨false, fun _ => false, fun _ => false⟩ ⟨9, 0⟩
    ⟨fun _ _ => 0⟩ 0 0 2 [5, 7] (by norm_num) (by norm_num) (by norm_num [stackAt])
  simpa [stackAt] using h

/-- C1 counter-evidence: at a concrete `EXTCODECOPY` (stack top-first
`[addr, memOffset 0, codeOffset 0, length 32]`, current memory 0, base gas
20) the meter computes the memory-growth charge 3, checks it for overflow,
but returns gas `20 + word_ceil(32)*CopyGas = 23` without it — the spec
requires `26`. -/
theorem c1_extcodecopy_memgas_dropped :
    calculateGasAndSize ⟨0⟩ ⟨false, fun _ => false, fun _ => false⟩ ⟨0, 0⟩
        .EXTCODECOPY 20 4 ⟨fun _ _ => 0⟩ 0 [1, 0, 0, 32]
      = some (32, 20 + toWordSize 32 * CopyGas64, [1, 0, 0, 32], 0) ∧
    calcQuadMemGas 0 (calcMemSize 0 32).1 = 3 ∧
    20 + toWordSize 32 * CopyGas64
      ≠ 20 + toWordSize 32 * CopyGas64 + calcQuadMemGas 0 (calcMemSize 0 32).1 := by
  refine ⟨?_, by decide, by decide⟩
  decide

/-- C8 counterexample: an `MLOAD` at offset 0 with current memory
high-water 64 returns first component 32 — the touched region's rounded
size — which is strictly below the current high-water mark, refuting
`first = max(current_hw, word_ceil(offset+length)*32)`. -/
theorem c8_newmemsize_not_maxed :
    calculateGasAndSize ⟨0⟩ ⟨false, fun _ => false, fun _ => false⟩ ⟨0, 0⟩
        .MLOAD 3 1 ⟨fun _ _ => 0⟩ 64 [0]
      = some (32, 3, [0], 0) ∧
    (32 : Nat) ≠ max 64 (toWordSize (0 + 32) * 32) := by
  refine ⟨by decide, by decide⟩

/-- C8 amended: on success the first component of the meter's result is
`word_ceil(region) * 32` for the opcode's memory region from the stack —
independent of the current memory high-water mark (which enters only the
gas charge). -/
theorem c8_newmemsize_eq_region (gt : GasTable) (env : EnvModel)
    (c : ContractM) (sdb : StateDBM) (op : Op)
    (instrGas instrPop memLen : Nat) (stack : List Nat)
    (r : Nat × Nat × List Nat × Nat)
    (h : calculateGasAndSize gt env c op instrGas instrPop sdb memLen stack = some r) :
    r.1 = toWordSize (regionSize op stack) * 32 := by
  simp only [calculateGasAndSize] at h
  split at h
  · simp at h
  · cases op
    case SSTORE =>
      simp only [] at h
      split_ifs at h <;>
        (rw [Option.some_inj] at h; subst h; simp [regionSize])
    case MLOAD =>
      simp only [] at h
      split_ifs at h <;>
        (rw [Option.some_inj] at h; subst h; simp [regionSize])
    case EXTCODECOPY =>
      simp only [] at h
      split_ifs at h <;>
        (rw [Option.some_inj] at h; subst h; simp [regionSize])
    case CALL =>
      simp only [] at h
      split at h
      · simp at h
      · split at h
        · simp at h
        · split_ifs at h <;>
            (rw [Option.some_inj] at h; subst h; simp [regionSize])
    case CALLCODE =>
      simp only [] at h
      split at h
      · simp at h
      · split at h
        · simp at h
        · split_ifs at h <;>
            (rw [Option.some_inj] at h; subst h; simp [regionSize])

/-- Witness for the amended C8 at the concrete `MLOAD` of the
counterexample: the returned first component is the touched region's
rounded size. -/
theorem c8_newmemsize_eq_region_witness :
    calculateGasAndSize ⟨0⟩ ⟨false, fun _ => false, fun _ => false⟩ ⟨0, 0⟩
        .MLOAD 3 1 ⟨fun _ _ => 0⟩ 64 [0] = some (32, 3, [0], 0) ∧
      (32, 3, ([0] : List Nat), (0 : Nat)).1 = toWordSize (regionSize .MLOAD [0]) * 32 :=
  ⟨by decide,
   c8_newmemsize_eq_region ⟨0⟩ ⟨false, fun _ => false, fun _ => false⟩ ⟨0, 0⟩
     ⟨fun _ _ => 0⟩ .MLOAD 3 1 64 [0] (32, 3, [0], 0) (by decide)⟩

/-- The metering-consumed gas of a `CALL`/`CALLCODE` before forwarding,
spelled out in closed form for the forwarding theorem: the `Calls` price,
the new-account surcharge (CALL only), the value-transfer surcharge, and
the memory-growth charge for the larger of the two regions. -/
def callConsumedGas (gt : GasTable) (env : EnvModel) (op : Op) (memLen : Nat)
    (stack : List Nat) : Nat :=
  gt.Calls
  + (if op = Op.CALL ∧ (if env.eip158
        then env.dbEmpty (stackAt stack 1 % 2 ^ 160) ∧ ¬ stackAt stack 2 = 0
        else ¬ env.dbExist (stackAt stack 1 % 2 ^ 160))
     then CallNewAccountGas64 else 0)
  + (if ¬ stackAt stack 2 = 0 then CallValueTransferGas64 else 0)
  + calcQuadMemGas memLen (regionSize op stack)

/-- The common tail of the CALL/CALLCODE metering branch after the
surcharges: memory regions, memory charge, and the 63/64 forwarding with
the stack replacement. -/
theorem c3_callTail (gt : GasTable) (c : ContractM) (memLen : Nat)
    (stack : List Nat) (g3 : Nat)
    (hx : (calcMemSize (stackAt stack 5) (stackAt stack 6)).2 = false)
    (hy : (calcMemSize (stackAt stack 3) (stackAt stack 4)).2 = false)
    (hmem : g3 + calcQuadMemGas memLen
      (max (calcMemSize (stackAt stack 5) (stackAt stack 6)).1
           (calcMemSize (stackAt stack 3) (stackAt stack 4)).1) < 2 ^ 64)
    (hfw : (g3 + calcQuadMemGas memLen
        (max (calcMemSize (stackAt stack 5) (stackAt stack 6)).1
             (calcMemSize (stackAt stack 3) (stackAt stack 4)).1))
      + callGas gt c.gas64 (g3 + calcQuadMemGas memLen
          (max (calcMemSize (stackAt stack 5) (stackAt stack 6)).1
               (calcMemSize (stackAt stack 3) (stackAt stack 4)).1)) (stackAt stack 0)
        < 2 ^ 64) :
    (if (calcMemSize (stackAt stack 5) (stackAt stack 6)).2 then none
     else if (calcMemSize (stackAt stack 3) (stackAt stack 4)).2 then none
     else if ¬ IsAddSafe g3 (calcQuadMemGas memLen
         (max (calcMemSize (stackAt stack 5) (stackAt stack 6)).1
              (calcMemSize (stackAt stack 3) (stackAt stack 4)).1)) then none
     else if ¬ IsAddSafe (g3 + calcQuadMemGas memLen
           (max (calcMemSize (stackAt stack 5) (stackAt stack 6)).1
                (calcMemSize (stackAt stack 3) (stackAt stack 4)).1))
         (callGas gt c.gas64 (g3 + calcQuadMemGas memLen
             (max (calcMemSize (stackAt stack 5) (stackAt stack 6)).1
                  (calcMemSize (stackAt stack 3) (stackAt stack 4)).1)) (stackAt stack 0))
       then none
     else some (toWordSize (max (calcMemSize (stackAt stack 5) (stackAt stack 6)).1
            (calcMemSize (stackAt stack 3) (stackAt stack 4)).1) * 32,
          (g3 + calcQuadMemGas memLen
            (max (calcMemSize (stackAt stack 5) (stackAt stack 6)).1
                 (calcMemSize (stackAt stack 3) (stackAt stack 4)).1))
          + callGas gt c.gas64 (g3 + calcQuadMemGas memLen
              (max (calcMemSize (stackAt stack 5) (stackAt stack 6)).1
                   (calcMemSize (stackAt stack 3) (stackAt stack 4)).1)) (stackAt stack 0),
          callGas gt c.gas64 (g3 + calcQuadMemGas memLen
              (max (calcMemSize (stackAt stack 5) (stackAt stack 6)).1
                   (calcMemSize (stackAt stack 3) (stackAt stack 4)).1)) (stackAt stack 0)
            :: stack.tail, 0) : Option (Nat × Nat × List Nat × Nat))
      = some (toWordSize (max (calcMemSize (stackAt stack 5) (stackAt stack 6)).1
            (calcMemSize (stackAt stack 3) (stackAt stack 4)).1) * 32,
          (g3 + calcQuadMemGas memLen
            (max (calcMemSize (stackAt stack 5) (stackAt stack 6)).1
                 (calcMemSize (stackAt stack 3) (stackAt stack 4)).1))
          + callGas gt c.gas64 (g3 + calcQuadMemGas memLen
              (max (calcMemSize (stackAt stack 5) (stackAt stack 6)).1
                   (calcMemSize (stackAt stack 3) (stackAt stack 4)).1)) (stackAt stack 0),
          callGas gt c.gas64 (g3 + calcQuadMemGas memLen
              (max (calcMemSize (stackAt stack 5) (stackAt stack 6)).1
                   (calcMemSize (stackAt stack 3) (stackAt stack 4)).1)) (stackAt stack 0)
            :: stack.tail, 0) := by
  rw [hx, hy]
  rw [if_neg (by simp), if_neg (by simp)]
  rw [if_neg (by simp only [IsAddSafe, decide_eq_true_eq, not_not]; omega)]
  rw [if_neg (by simp only [IsAddSafe, decide_eq_true_eq, not_not]; omega)]

/-- C3: for a `CALL`/`CALLCODE`, on the successful path the meter forwards
`min(requested, (A - c) - (A - c)/64)` gas where `A` is the contract's
available gas and `c` the metering-consumed gas (base `Calls` price,
surcharges and memory charge); the top stack slot is overwritten with the
forwarded amount and the forwarded amount is added to the returned gas.
The source reads the requested gas with `.Uint64()`, truncating the
256-bit stack item to 64 bits, so the hypothesis `hreq` keeps the claim's
`requested` and the truncated value the code uses one and the same. -/
theorem c3_call_forwarded_gas (gt : GasTable) (env : EnvModel) (c : ContractM)
    (sdb : StateDBM) (op : Op) (memLen instrGas instrPop : Nat)
    (stack : List Nat)
    (hop : op = Op.CALL ∨ op = Op.CALLCODE)
    (hpop : instrPop ≤ stack.length)
    (hx : (calcMemSize (stackAt stack 5) (stackAt stack 6)).2 = false)
    (hy : (calcMemSize (stackAt stack 3) (stackAt stack 4)).2 = false)
    (hreq : stackAt stack 0 < 2 ^ 64)
    (hc : callConsumedGas gt env op memLen stack < 2 ^ 64)
    (hcg : callConsumedGas gt env op memLen stack
      + callGas gt c.gas64 (callConsumedGas gt env op memLen stack) (stackAt stack 0)
        < 2 ^ 64) :
    calculateGasAndSize gt env c op instrGas instrPop sdb memLen stack =
      some (toWordSize (regionSize op stack) * 32,
        callConsumedGas gt env op memLen stack
          + callGas gt c.gas64 (callConsumedGas gt env op memLen stack) (stackAt stack 0),
        callGas gt c.gas64 (callConsumedGas gt env op memLen stack) (stackAt stack 0)
          :: stack.tail,
        0) := by
  have hmod : stackAt stack 0 % 2 ^ 64 = stackAt stack 0 := Nat.mod_eq_of_lt hreq
  rcases hop with rfl | rfl
  · -- CALL
    simp only [calculateGasAndSize, baseCalc, hmod,
      if_neg (show ¬ stack.length < instrPop by omega)]
    by_cases he : env.eip158 = true
    · simp only [callConsumedGas, regionSize, if_pos he, true_and] at hc hcg ⊢
      by_cases hEm : env.dbEmpty (stackAt stack 1 % 2 ^ 160) = true ∧ ¬ stackAt stack 2 = 0
      · simp only [if_pos hEm] at hc hcg ⊢
        simp only [if_neg (show ¬ ¬ IsAddSafe gt.Calls CallNewAccountGas64 = true by
          simp only [IsAddSafe, decide_eq_true_eq, not_not]; omega)]
        try (simp only [if_true])
        try (simp only [])
        simp only [if_pos hEm.2] at hc hcg ⊢
        simp only [if_neg (show ¬ ¬ IsAddSafe (gt.Calls + CallNewAccountGas64)
            CallValueTransferGas64 = true by
          simp only [IsAddSafe, decide_eq_true_eq, not_not]; omega)]
        try (simp only [])
        exact c3_callTail gt c memLen stack
          (gt.Calls + CallNewAccountGas64 + CallValueTransferGas64) hx hy hc hcg
      · simp only [if_neg hEm] at hc hcg ⊢
        try (simp only [add_zero] at hc hcg)
        try (simp only [])
        by_cases htv : stackAt stack 2 = 0
        · simp only [if_neg (not_not_intro htv)] at hc hcg ⊢
          try (simp only [add_zero] at hc hcg)
          try (simp only [])
          exact c3_callTail gt c memLen stack gt.Calls hx hy hc hcg
        · simp only [eq_true htv, if_true] at hc hcg ⊢
          simp only [if_neg (show ¬ ¬ IsAddSafe gt.Calls CallValueTransferGas64 = true by
            simp only [IsAddSafe, decide_eq_true_eq, not_not]; omega)]
          try (simp only [])
          exact c3_callTail gt c memLen stack
            (gt.Calls + CallValueTransferGas64) hx hy hc hcg
    · simp only [callConsumedGas, regionSize, if_neg he, true_and] at hc hcg ⊢
      by_cases hEx : env.dbExist (stackAt stack 1 % 2 ^ 160) = true
      · simp only [if_neg (not_not_intro hEx)] at hc hcg ⊢
        try (simp only [add_zero] at hc hcg)
        try (simp only [])
        by_cases htv : stackAt stack 2 = 0
        · simp only [if_neg (not_not_intro htv)] at hc hcg ⊢
          try (simp only [add_zero] at hc hcg)
          try (simp only [])
          exact c3_callTail gt c memLen stack gt.Calls hx hy hc hcg
        · simp only [eq_true htv, if_true] at hc hcg ⊢
          simp only [if_neg (show ¬ ¬ IsAddSafe gt.Calls CallValueTransferGas64 = true by
            simp only [IsAddSafe, decide_eq_true_eq, not_not]; omega)]
          try (simp only [])
          exact c3_callTail gt c memLen stack
            (gt.Calls + CallValueTransferGas64) hx hy hc hcg
      · simp only [if_pos hEx] at hc hcg ⊢
        simp only [if_neg (show ¬ ¬ IsAddSafe gt.Calls CallNewAccountGas64 = true by
          simp only [IsAddSafe, decide_eq_true_eq, not_not]; omega)]
        try (simp only [if_true])
        try (simp only [])
        by_cases htv : stackAt stack 2 = 0
        · simp only [if_neg (not_not_intro htv)] at hc hcg ⊢
          try (simp only [add_zero] at hc hcg)
          try (simp only [])
          exact c3_callTail gt c memLen stack
            (gt.Calls + CallNewAccountGas64) hx hy hc hcg
        · simp only [eq_true htv, if_true] at hc hcg ⊢
          simp only [if_neg (show ¬ ¬ IsAddSafe (gt.Calls + CallNewAccountGas64)
              CallValueTransferGas64 = true by
            simp only [IsAddSafe, decide_eq_true_eq, not_not]; omega)]
          try (simp only [])
          exact c3_callTail gt c memLen stack
            (gt.Calls + CallNewAccountGas64 + CallValueTransferGas64) hx hy hc hcg
  · -- CALLCODE: no account surcharge
    simp only [calculateGasAndSize, baseCalc, hmod,
      if_neg (show ¬ stack.length < instrPop by omega)]
    simp only [callConsumedGas, regionSize,
      if_neg (show ¬ (Op.CALLCODE = Op.CALL ∧ _) from fun hq => by cases hq.1)] at hc hcg ⊢
    try (simp only [add_zero] at hc hcg ⊢)
    rw [if_neg (show ¬ Op.CALLCODE = Op.CALL by decide)]
    try (simp only [])
    by_cases htv : stackAt stack 2 = 0
    · simp only [if_neg (not_not_intro htv)] at hc hcg ⊢
      try (simp only [add_zero] at hc hcg)
      try (simp only [])
      exact c3_callTail gt c memLen stack gt.Calls hx hy hc hcg
    · simp only [eq_true htv, if_true] at hc hcg ⊢
      simp only [if_neg (show ¬ ¬ IsAddSafe gt.Calls CallValueTransferGas64 = true by
        simp only [IsAddSafe, decide_eq_true_eq, not_not]; omega)]
      try (simp only [])
      exact c3_callTail gt c memLen stack
        (gt.Calls + CallValueTransferGas64) hx hy hc hcg

/-- Witness for C3 at the spec's concrete 63/64 scenario: available gas
6400, `Calls = 700`, requested 100000, no value transfer, no memory growth:
forwarded `min(100000, 5700 - 89) = 5611`, total gas `700 + 5611 = 6311`,
and the requested-gas stack slot is overwritten with 5611. -/
theorem c3_call_forwarded_gas_witness :
    (Op.CALL = Op.CALL ∨ Op.CALL = Op.CALLCODE) ∧
    (7 : Nat) ≤ ([100000, 0, 0, 0, 0, 0, 0] : List Nat).length ∧
    stackAt [100000, 0, 0, 0, 0, 0, 0] 0 < 2 ^ 64 ∧
    callConsumedGas ⟨700⟩ ⟨false, fun _ => true, fun _ => true⟩ Op.CALL 0
        [100000, 0, 0, 0, 0, 0, 0] < 2 ^ 64 ∧
    calculateGasAndSize ⟨700⟩ ⟨false, fun _ => true, fun _ => true⟩ ⟨0, 6400⟩
        Op.CALL 40 7 ⟨fun _ _ => 0⟩ 0 [100000, 0, 0, 0, 0, 0, 0]
      = some (0, 6311, [5611, 0, 0, 0, 0, 0, 0], 0) := by
  refine ⟨Or.inl rfl, by norm_num, by decide, by decide, ?_⟩
  have h := c3_call_forwarded_gas ⟨700⟩ ⟨false, fun _ => true, fun _ => true⟩
    ⟨0, 6400⟩ ⟨fun _ _ => 0⟩ Op.CALL 0 40 7 [100000, 0, 0, 0, 0, 0, 0]
    (Or.inl rfl) (by norm_num) (by decide) (by decide) (by decide) (by decide) (by decide)
  exact h.trans (by decide)

/-! ## Program decoder and status machine (`core/vm/program.go`) -/

/-- A decoded instruction as far as the claims are concerned: the opcode
byte, the original program counter, and the `PUSH` immediate (the other
opcodes' instruction functions and auxiliary data play no role in the
claims and are uniformly 0 here). -/
structure InstrC where
  op : Nat
  pc : Nat
  data : Nat
deriving DecidableEq

/-- Modelled from the spec: the `PUSH` immediate is the big-endian integer
of the next `size` code bytes (`getData`/`Bytes2Big` are not under `src/`);
the bytes are clipped at end-of-code and the spec's boundary rule says the
missing bytes are treated as zero by LEFT-padding, so the value is the
big-endian integer of the available bytes. -/
def pushImmediate (code : Bytes) (start size : Nat) : Nat :=
  ((code.drop start).take size).foldl (fun acc b => acc * 256 + b) 0

/-- The decode loop of `CompileProgram` from a given `pc`: one pass,
advancing by 1 per instruction and by `size + 1` for a `PUSH_size` opcode
(0x60–0x7F); a `JUMPDEST` byte (0x5B) decoded as an opcode registers its
`pc` in the returned destination list.  Every other byte, known opcode or
not, decodes to one instruction at `pc` (the source's remaining cases all
call `addInstr` and advance by one).  The first argument bounds the number
of remaining loop iterations — the loop advances `pc` by at least one per
iteration, so `code.length - pc` iterations always suffice; the bound only
makes the recursion structural and is never exhausted from `CompileProgramD`. -/
def compileFrom (code : Bytes) : Nat → Nat → List InstrC × List Nat
  | 0, _ => ([], [])
  | fuel + 1, pc =>
    if pc < code.length then
      let op := code.getD pc 0
      if 0x60 ≤ op ∧ op ≤ 0x7F then
        let size := op - 0x60 + 1
        let r := compileFrom code fuel (pc + size + 1)
        (⟨op, pc, pushImmediate code (pc + 1) size⟩ :: r.1, r.2)
      else
        let r := compileFrom code fuel (pc + 1)
        if op = 0x5B then (⟨op, pc, 0⟩ :: r.1, pc :: r.2)
        else (⟨op, pc, 0⟩ :: r.1, r.2)
    else ([], [])

/-- `CompileProgram` on a fresh program: the instruction array and the
jump-destination set of the compiled program. -/
def CompileProgramD (code : Bytes) : List InstrC × List Nat :=
  compileFrom code code.length 0

/-- `validDest(dests, dest)`: false above the 64-bit range, membership
otherwise. -/
def validDest (dests : List Nat) (dest : Nat) : Bool :=
  if 2 ^ 64 - 1 < dest then false else dests.contains dest

/-- The destination list is the `filterMap` of the instruction list on
`JUMPDEST`, at every fuel and starting pc. -/
theorem compileFrom_dests (code : Bytes) :
    ∀ (fuel pc : Nat),
      (compileFrom code fuel pc).2 = (compileFrom code fuel pc).1.filterMap
        (fun i => if i.op = 0x5B then some i.pc else none) := by
  intro fuel
  induction fuel with
  | zero => intro pc; rfl
  | succ fuel ih =>
    intro pc
    rw [compileFrom]
    by_cases hpc : pc < code.length
    · rw [if_pos hpc]
      by_cases hpush : 0x60 ≤ code.getD pc 0 ∧ code.getD pc 0 ≤ 0x7F
      · rw [if_pos hpush]
        simp only [List.filterMap_cons]
        rw [if_neg (show ¬ code.getD pc 0 = 0x5B by omega)]
        exact ih (pc + (code.getD pc 0 - 0x60 + 1) + 1)
      · rw [if_neg hpush]
        by_cases hjd : code.getD pc 0 = 0x5B
        · rw [if_pos hjd]
          simp only [List.filterMap_cons, if_pos hjd]
          rw [ih (pc + 1)]
        · rw [if_neg hjd]
          simp only [List.filterMap_cons, if_neg hjd]
          exact ih (pc + 1)
    · rw [if_neg hpc]
      rfl

/-- C7: the jump-destination set of a compiled program is exactly the set
of program counters at which a `JUMPDEST` byte is decoded as an opcode
(a `0x5B` inside a `PUSH` immediate is skipped by the decoder and never
registered), and `validDest` accepts exactly those program counters that
fit in 64 bits. -/
theorem c7_jumpdest_exactly (code : Bytes) :
    (CompileProgramD code).2 = (CompileProgramD code).1.filterMap
      (fun i => if i.op = 0x5B then some i.pc else none) ∧
    ∀ dest : Nat, validDest (CompileProgramD code).2 dest = true ↔
      (dest ≤ 2 ^ 64 - 1 ∧
        ∃ i ∈ (CompileProgramD code).1, i.op = 0x5B ∧ i.pc = dest) := by
  refine ⟨compileFrom_dests code code.length 0, ?_⟩
  intro dest
  rw [validDest]
  by_cases hd : 2 ^ 64 - 1 < dest
  · rw [if_pos hd]
    simp only [Bool.false_eq_true, false_iff]
    intro hcon
    omega
  · rw [if_neg hd]
    rw [show (CompileProgramD code).2 = _ from compileFrom_dests code code.length 0]
    have hmem : ((CompileProgramD code).1.filterMap
          (fun i => if i.op = 0x5B then some i.pc else none)).contains dest = true ↔
        ∃ i ∈ (CompileProgramD code).1, i.op = 0x5B ∧ i.pc = dest := by
      simp [List.mem_filterMap]
    constructor
    · intro h2
      exact ⟨by omega, hmem.mp h2⟩
    · intro h2
      exact hmem.mpr h2.2

/-- Past the end of the code the decode loop yields nothing, whatever the
iteration bound. -/
theorem compileFrom_ge (code : Bytes) (fuel pc : Nat) (h : code.length ≤ pc) :
    compileFrom code fuel pc = ([], []) := by
  cases fuel with
  | zero => rfl
  | succ fuel =>
    rw [compileFrom, if_neg (by omega)]

/-- Leading zero bytes do not change a big-endian byte-string value:
left-padding is the identity on the decoded integer. -/
theorem beFold_replicate_zero (k : Nat) (l : Bytes) :
    (List.replicate k 0 ++ l).foldl (fun acc b => acc * 256 + b) 0
      = l.foldl (fun acc b => acc * 256 + b) 0 := by
  induction k with
  | zero => rfl
  | succ k ih =>
    rw [List.replicate_succ, List.cons_append, List.foldl_cons]
    simpa using ih

/-- C4: a `PUSH_n` whose `n` immediate bytes run past end-of-code still
decodes to a single valid `PUSH` instruction consuming all remaining
bytes, and its immediate is the big-endian value of the available bytes
left-padded with zeros to `n` bytes.  (In particular a `PUSH32` at the
last code byte gets the value of 31 zero bytes followed by that byte.) -/
theorem c4_push_truncated (code : Bytes) (fuel pc : Nat)
    (hpc : pc < code.length)
    (hop1 : 0x60 ≤ code.getD pc 0) (hop2 : code.getD pc 0 ≤ 0x7F)
    (htr : code.length < pc + 1 + (code.getD pc 0 - 0x60 + 1)) :
    compileFrom code (fuel + 1) pc =
      ([⟨code.getD pc 0, pc,
          (List.replicate ((code.getD pc 0 - 0x60 + 1) - (code.length - (pc + 1))) 0
              ++ code.drop (pc + 1)).foldl (fun acc b => acc * 256 + b) 0⟩],
       []) := by
  rw [compileFrom, if_pos hpc, if_pos ⟨hop1, hop2⟩]
  simp only []
  rw [compileFrom_ge code fuel _ (by omega)]
  rw [beFold_replicate_zero]
  rw [pushImmediate]
  rw [List.take_of_length_le (by rw [List.length_drop]; omega)]

/-- Witness for C4: a `PUSH32` opcode at the last byte of a two-byte code
string decodes to one instruction whose immediate is the value of 31 zero
bytes followed by the single available byte 9 — that is, 9. -/
theorem c4_push_truncated_witness :
    (0 < ([0x7F, 9] : Bytes).length ∧ 0x60 ≤ ([0x7F, 9] : Bytes).getD 0 0 ∧
      ([0x7F, 9] : Bytes).getD 0 0 ≤ 0x7F ∧
      ([0x7F, 9] : Bytes).length < 0 + 1 + (([0x7F, 9] : Bytes).getD 0 0 - 0x60 + 1)) ∧
    compileFrom [0x7F, 9] 2 0 =
      ([⟨0x7F, 0,
          (List.replicate ((([0x7F, 9] : Bytes).getD 0 0 - 0x60 + 1)
              - (([0x7F, 9] : Bytes).length - (0 + 1))) 0
            ++ ([0x7F, 9] : Bytes).drop (0 + 1)).foldl (fun acc b => acc * 256 + b) 0⟩],
       []) :=
  ⟨⟨by decide, by decide, by decide, by decide⟩,
   c4_push_truncated [0x7F, 9] 1 0 (by decide) (by decide) (by decide) (by decide)⟩

/-- The JIT program status values (`progStatus` in the source). -/
inductive progStatus where
  | progUnknown | progCompile | progReady | progError
deriving DecidableEq

/-- The sequence of stores `CompileProgram` performs on the status field,
given the value it reads first: nothing when a compilation is already in
flight (`status == progCompile`), otherwise a store of `progCompile`
followed by the deferred store of `progReady`.  `progError` is never
stored by any code path. -/
def compileProgramWrites (s : progStatus) : List progStatus :=
  if s = .progCompile then [] else [.progCompile, .progReady]

/-- The status history of one `Program` object under `n` sequential
`CompileProgram` calls: `NewProgram` initialises the field to the zero
value `progUnknown`, each `CompileProgram` appends its stores, and
`GetProgramStatus` only reads. -/
def statusHistory : Nat → List progStatus
  | 0 => [.progUnknown]
  | n + 1 =>
    let h := statusHistory n
    h ++ compileProgramWrites (h.getLastD .progUnknown)

/-- The consecutive pairs of a status history: every transition the field
undergoes. -/
def statusTransitions : List progStatus → List (progStatus × progStatus)
  | [] => []
  | [_] => []
  | a :: b :: rest => (a, b) :: statusTransitions (b :: rest)

/-- C6 counterexample: a second `CompileProgram` call on an already-Ready
program stores `progCompile` again, producing the transition
Ready → Compiling, which the claim's transition list excludes. -/
theorem c6_ready_to_compiling :
    (progStatus.progReady, progStatus.progCompile)
        ∈ statusTransitions (statusHistory 2) ∧
      (progStatus.progReady, progStatus.progCompile)
        ∉ [(progStatus.progUnknown, progStatus.progCompile),
           (progStatus.progCompile, progStatus.progReady),
           (progStatus.progCompile, progStatus.progError)] := by
  decide

theorem statusHistory_ne_nil (n : Nat) : statusHistory n ≠ [] := by
  cases n with
  | zero => simp [statusHistory]
  | succ n =>
    rw [statusHistory]
    simp [statusHistory_ne_nil n]

theorem statusTransitions_concat (x : progStatus) :
    ∀ (l : List progStatus), l ≠ [] →
      statusTransitions (l ++ [x])
        = statusTransitions l ++ [(l.getLastD .progUnknown, x)] := by
  intro l
  induction l with
  | nil => intro h; exact absurd rfl h
  | cons a l ih =>
    intro _
    cases l with
    | nil => rfl
    | cons b rest =>
      show statusTransitions (a :: (b :: rest ++ [x])) = _
      rw [show statusTransitions (a :: (b :: rest ++ [x]))
          = (a, b) :: statusTransitions (b :: rest ++ [x]) from rfl]
      rw [ih (by simp)]
      show _ = ((a, b) :: statusTransitions (b :: rest)) ++ _
      simp only [List.cons_append, List.getLastD_cons]

theorem statusHistory_last (n : Nat) :
    (statusHistory n).getLastD .progUnknown = .progUnknown ∨
      (statusHistory n).getLastD .progUnknown = .progReady := by
  cases n with
  | zero => left; rfl
  | succ n =>
    right
    rw [statusHistory]
    have hlast := statusHistory_last n
    have hw : compileProgramWrites ((statusHistory n).getLastD .progUnknown)
        = [.progCompile, .progReady] := by
      rcases hlast with h | h <;> rw [compileProgramWrites, if_neg (by rw [h]; intro hc; cases hc)]
    rw [hw]
    rw [show statusHistory n ++ [progStatus.progCompile, progStatus.progReady]
        = (statusHistory n ++ [progStatus.progCompile]) ++ [progStatus.progReady] by simp]
    rw [List.getLastD_concat]

/-- C6 amended: the status field of a program only ever takes the
transitions Unknown → Compiling, Compiling → Ready, and — on
re-compilation of an already-Ready program — Ready → Compiling;
`progError` is never stored, and no other transition occurs. -/
theorem c6_amended_transitions (n : Nat) (t : progStatus × progStatus)
    (ht : t ∈ statusTransitions (statusHistory n)) :
    t ∈ [(progStatus.progUnknown, progStatus.progCompile),
         (progStatus.progCompile, progStatus.progReady),
         (progStatus.progReady, progStatus.progCompile)] := by
  induction n with
  | zero => simp [statusHistory, statusTransitions] at ht
  | succ n ih =>
    rw [statusHistory] at ht
    have hlast := statusHistory_last n
    have hw : compileProgramWrites ((statusHistory n).getLastD .progUnknown)
        = [.progCompile, .progReady] := by
      rcases hlast with h | h <;> rw [compileProgramWrites, if_neg (by rw [h]; intro hc; cases hc)]
    rw [hw] at ht
    rw [show statusHistory n ++ [progStatus.progCompile, progStatus.progReady]
        = (statusHistory n ++ [progStatus.progCompile]) ++ [progStatus.progReady] by simp] at ht
    rw [statusTransitions_concat _ _ (by simp [statusHistory_ne_nil n])] at ht
    rw [statusTransitions_concat _ _ (statusHistory_ne_nil n)] at ht
    rw [List.getLastD_concat] at ht
    simp only [List.mem_append, List.mem_singleton] at ht
    rcases ht with (ht | ht) | ht
    · exact ih ht
    · rcases hlast with h | h <;> rw [ht, h] <;> simp
    · rw [ht]; simp

/-- Witness for the amended C6: the Ready → Compiling transition of the
counterexample is in the amended transition list. -/
theorem c6_amended_transitions_witness :
    (progStatus.progReady, progStatus.progCompile)
        ∈ statusTransitions (statusHistory 2) ∧
      (progStatus.progReady, progStatus.progCompile)
        ∈ [(progStatus.progUnknown, progStatus.progCompile),
           (progStatus.progCompile, progStatus.progReady),
           (progStatus.progReady, progStatus.progCompile)] :=
  ⟨by decide, c6_amended_transitions 2 (progStatus.progReady, progStatus.progCompile) (by decide)⟩
